import Mathlib

/-!
Verification of materials-commons/mcglobusfs against its specification.

Shallow embedding of `pkg/fs/mcbridgefs/transfer_path_context.go` and
`pkg/monitor/globus_task_monitor.go`.  Go strings are modelled as `List Char`
(`GoStr`), Go `int` as `Int`, and code that can panic returns `Option`.
-/

abbrev GoStr := List Char

/-- Go `strings.Split(s, "/")` (and the splitting core of `strings.SplitN`):
splitting the empty string yields `[""]`, a leading or trailing separator
yields a leading or trailing empty component. -/
def splitOnSlash : GoStr → List GoStr
  | [] => [[]]
  | c :: rest =>
    if c = '/' then [] :: splitOnSlash rest
    else
      match splitOnSlash rest with
      | [] => [[c]]
      | h :: t => (c :: h) :: t

/-- Go `strings.Join(elems, "/")`, the inverse of splitting. -/
def joinSlash : List GoStr → GoStr
  | [] => []
  | [s] => s
  | s :: rest => s ++ '/' :: joinSlash rest

/-- Go `strings.SplitN(s, "/", n)` for `n > 0`: at most `n` components, the
last one holding the unsplit remainder. -/
def splitN (s : GoStr) (n : Nat) : List GoStr :=
  let parts := splitOnSlash s
  if parts.length ≤ n then parts
  else parts.take (n - 1) ++ [joinSlash (parts.drop (n - 1))]

/-- Core of Go `path/filepath.Clean` (Unix), working over the `/`-split
components with a reversed accumulator: empty and `.` components are dropped,
`..` pops a previous component (or is dropped at the root, or kept when there
is nothing to pop in a relative path). -/
def cleanRev (rooted : Bool) : List GoStr → List GoStr → List GoStr
  | acc, [] => acc
  | acc, c :: rest =>
    if c = [] ∨ c = ['.'] then cleanRev rooted acc rest
    else if c = ['.', '.'] then
      match acc with
      | [] => if rooted then cleanRev rooted [] rest else cleanRev rooted [c] rest
      | a :: as => if a = ['.', '.'] then cleanRev rooted (c :: a :: as) rest else cleanRev rooted as rest
    else cleanRev rooted (c :: acc) rest

/-- Go `path/filepath.Clean` on Unix: lexical path normalization.
`Clean("") = "."`; a rooted result keeps its leading slash; an emptied
relative path becomes `"."`. -/
def clean (s : GoStr) : GoStr :=
  match s with
  | [] => ['.']
  | c :: rest =>
    if c = '/' then '/' :: joinSlash ((cleanRev true [] (splitOnSlash (c :: rest))).reverse)
    else
      let comps := (cleanRev false [] (splitOnSlash (c :: rest))).reverse
      if comps = [] then ['.'] else joinSlash comps

/-- Go `path/filepath.Join` on Unix: joins from the first non-empty element
with `/` and cleans the result; all-empty input yields `""`. -/
def goJoin (elems : List GoStr) : GoStr :=
  match elems.dropWhile List.isEmpty with
  | [] => []
  | rest => clean (joinSlash rest)

/-- ASCII decimal digit test, `'0' ≤ c ≤ '9'`. -/
def isDigitCh (c : Char) : Bool := decide (48 ≤ c.toNat) && decide (c.toNat ≤ 57)

/-- Numeric value of an ASCII digit. -/
def digitVal (c : Char) : Nat := c.toNat - 48

/-- Accumulating base-10 parse of a digit run; `none` on any non-digit. -/
def digitsValCore : Nat → GoStr → Option Nat
  | acc, [] => some acc
  | acc, c :: rest => if isDigitCh c then digitsValCore (acc * 10 + digitVal c) rest else none

/-- Base-10 value of a non-empty all-digit string, else `none`. -/
def digitsVal : GoStr → Option Nat
  | [] => none
  | c :: rest => digitsValCore 0 (c :: rest)

/-- Go `strconv.Atoi` as used by the source (`v, _ = strconv.Atoi(s)`): the
error is discarded, so a syntax error yields `0`.  An optional leading sign is
accepted.  (Go clamps out-of-range values to the 64-bit bounds; no claim
observes magnitudes that large, so the value is kept exact here.) -/
def atoi (s : GoStr) : Int :=
  match s with
  | [] => 0
  | c :: rest =>
    if c = '+' then (digitsVal rest).elim 0 (fun n => (n : Int))
    else if c = '-' then (digitsVal rest).elim 0 (fun n => -(n : Int))
    else (digitsVal (c :: rest)).elim 0 (fun n => (n : Int))

/-- Fuel-indexed decimal printer (fuel `n + 1` always suffices for `n`). -/
def natToCharsCore : Nat → Nat → GoStr → GoStr
  | 0, _, acc => acc
  | fuel + 1, n, acc =>
    if n < 10 then Char.ofNat (48 + n) :: acc
    else natToCharsCore fuel (n / 10) (Char.ofNat (48 + n % 10) :: acc)

/-- Decimal representation of a natural number, as in Go `fmt.Sprintf("%d", n)`. -/
def natToChars (n : Nat) : GoStr := natToCharsCore (n + 1) n []

/-- Go `fmt.Sprintf("%d", i)` for a Go `int`. -/
def intToChars (i : Int) : GoStr :=
  if i < 0 then '-' :: natToChars i.natAbs else natToChars i.toNat

/-- The struct `TransferPathContext` of `transfer_path_context.go`. -/
structure TransferPathContext where
  TransferType : GoStr
  UserID : Int
  ProjectID : Int
  Path : GoStr
deriving DecidableEq, Repr

/-- Method `(p *TransferPathContext) ToFSPath(name string) string`:
`filepath.Join("/", p.TransferType, fmt.Sprintf("%d/%d", p.UserID, p.ProjectID), p.Path, name)`. -/
def ToFSPath (p : TransferPathContext) (name : GoStr) : GoStr :=
  goJoin [['/'], p.TransferType, intToChars p.UserID ++ '/' :: intToChars p.ProjectID, p.Path, name]

/-- Function `ToTransferPathContext(p string) *TransferPathContext`.
The source reads `pathParts[1]` unconditionally right after
`strings.SplitN(p, "/", 5)`; when the input contains no `/` the slice has a
single element and Go panics with an index-out-of-range error — that panic is
modelled as `none`. -/
def ToTransferPathContext (p : GoStr) : Option TransferPathContext :=
  let pathParts := splitN p 5
  if 2 ≤ pathParts.length then
    let userID : Int := if 2 < pathParts.length then atoi (pathParts.getD 2 []) else 0
    let projectID : Int := if 3 < pathParts.length then atoi (pathParts.getD 3 []) else 0
    let rest : GoStr :=
      if pathParts.length = 5 then goJoin [['/'], pathParts.getD 4 []]
      else if userID ≠ 0 ∧ projectID ≠ 0 then ['/'] else []
    some ⟨pathParts.getD 1 [], userID, projectID, rest⟩
  else none

/-- A single clean path component: non-empty, not `.` or `..`, and free of
slashes.  These are exactly the components `filepath.Clean` leaves alone. -/
abbrev goodComp (c : GoStr) : Prop := c ≠ [] ∧ c ≠ ['.'] ∧ c ≠ ['.', '.'] ∧ '/' ∉ c

/-- Leap-year test of the proleptic Gregorian calendar (as in Go `time`). -/
def isLeapYear (y : Nat) : Bool := y % 4 = 0 && (y % 100 != 0 || y % 400 = 0)

/-- Number of days of month `m` (1-12) in year `y`. -/
def daysInMonth (y m : Nat) : Nat :=
  if m = 2 then (if isLeapYear y then 29 else 28)
  else if m = 4 ∨ m = 6 ∨ m = 9 ∨ m = 11 then 30 else 31

/-- Days from the civil date `y-m-d` to the epoch 1970-01-01 (standard
days-from-civil computation, floor division throughout). -/
def daysFromCivil (y m d : Int) : Int :=
  let yAdj := if m ≤ 2 then y - 1 else y
  let era := Int.fdiv yAdj 400
  let yoe := yAdj - era * 400
  let mp := Int.emod (m + 9) 12
  let doy := Int.fdiv (153 * mp + 2) 5 + d - 1
  let doe := yoe * 365 + Int.fdiv yoe 4 - Int.fdiv yoe 100 + doy
  era * 146097 + doe - 719468

/-- Go `time.Date(y, m, d, hh, mi, ss, 0, time.UTC)`, as an instant measured
in nanoseconds since the Unix epoch (the representation used for every
`time.Time` in this embedding; `t.After(u)` is then `u < t`). -/
def goTimeDate (y m d hh mi ss : Int) : Int :=
  (daysFromCivil y m d * 86400 + hh * 3600 + mi * 60 + ss) * 1000000000

/-- Zone suffix of an RFC 3339 timestamp: `Z`, or `±hh:mm` with
`hh ≤ 23`, `mm ≤ 59`; the result is the offset in seconds east of UTC. -/
def parseZone : GoStr → Option Int
  | ['Z'] => some 0
  | [sg, h1, h2, ':', m1, m2] =>
    if (sg = '+' ∨ sg = '-') ∧ isDigitCh h1 ∧ isDigitCh h2 ∧ isDigitCh m1 ∧ isDigitCh m2 then
      let hh := digitVal h1 * 10 + digitVal h2
      let mm := digitVal m1 * 10 + digitVal m2
      if hh ≤ 23 ∧ mm ≤ 59 then
        let off : Int := (hh * 3600 + mm * 60 : Nat)
        some (if sg = '-' then -off else off)
      else none
    else none
  | _ => none

/-- Maximal leading digit run of a string. -/
def takeDigitsRun : GoStr → List Char × GoStr
  | [] => ([], [])
  | c :: rest =>
    if isDigitCh c then
      let r := takeDigitsRun rest
      (c :: r.1, r.2)
    else ([], c :: rest)

/-- Base-10 value of a digit list (no validity check; callers pass digits). -/
def digitsToNat (ds : List Char) : Nat := ds.foldl (fun a c => a * 10 + digitVal c) 0

/-- Nanoseconds denoted by a fractional-second digit run (scaled to 9 places;
digits beyond the ninth carry no weight at nanosecond resolution). -/
def fracNanos (ds : List Char) : Nat :=
  let d9 := ds.take 9
  digitsToNat d9 * 10 ^ (9 - d9.length)

/-- Optional fractional seconds followed by the zone, as Go's RFC 3339 parse
accepts after the seconds field: `(.digits)?(Z|±hh:mm)`. -/
def parseFracZone : GoStr → Option (Nat × Int)
  | '.' :: c :: rest =>
    if isDigitCh c then
      let r := takeDigitsRun (c :: rest)
      match parseZone r.2 with
      | some off => some (fracNanos r.1, off)
      | none => none
    else none
  | s =>
    match parseZone s with
    | some off => some (0, off)
    | none => none

/-- Go `time.Parse(time.RFC3339, s)`: strict `YYYY-MM-DDThh:mm:ss` with
optional fractional seconds and a `Z` or `±hh:mm` zone, all fields
range-checked; the result is the denoted instant in nanoseconds since the
epoch, or `none` on any malformation. -/
def parseRFC3339 (s : GoStr) : Option Int :=
  match s with
  | y1 :: y2 :: y3 :: y4 :: '-' :: mo1 :: mo2 :: '-' :: d1 :: d2 :: 'T' ::
      h1 :: h2 :: ':' :: mi1 :: mi2 :: ':' :: s1 :: s2 :: rest =>
    if isDigitCh y1 ∧ isDigitCh y2 ∧ isDigitCh y3 ∧ isDigitCh y4 ∧
        isDigitCh mo1 ∧ isDigitCh mo2 ∧ isDigitCh d1 ∧ isDigitCh d2 ∧
        isDigitCh h1 ∧ isDigitCh h2 ∧ isDigitCh mi1 ∧ isDigitCh mi2 ∧
        isDigitCh s1 ∧ isDigitCh s2 then
      let yr := ((digitVal y1 * 10 + digitVal y2) * 10 + digitVal y3) * 10 + digitVal y4
      let mo := digitVal mo1 * 10 + digitVal mo2
      let dy := digitVal d1 * 10 + digitVal d2
      let hh := digitVal h1 * 10 + digitVal h2
      let mi := digitVal mi1 * 10 + digitVal mi2
      let ss := digitVal s1 * 10 + digitVal s2
      if 1 ≤ mo ∧ mo ≤ 12 ∧ 1 ≤ dy ∧ dy ≤ daysInMonth yr mo ∧ hh ≤ 23 ∧ mi ≤ 59 ∧ ss ≤ 59 then
        match parseFracZone rest with
        | some fz =>
          some ((daysFromCivil yr mo dy * 86400
            + ((hh * 3600 + mi * 60 + ss : Nat) : Int) - fz.2) * 1000000000 + fz.1)
        | none => none
      else none
    else none
  | _ => none

/-- `globus.Task`: the fields of the task-list entries read by the monitor
(named `GlobusTask` here because `Task` is taken by the Lean core library). -/
structure GlobusTask where
  TaskID : GoStr
  CompletionTime : GoStr
deriving DecidableEq, Repr

/-- One entry of `globus.TransferItems.Transfers`. -/
structure TransferItem where
  SourcePath : GoStr
  DestinationPath : GoStr
deriving DecidableEq, Repr

/-- `globus.TransferItems` as returned by `GetTaskSuccessfulTransfers`. -/
structure TransferItems where
  Transfers : List TransferItem
deriving DecidableEq, Repr

/-- The task-list payload returned by `GetEndpointTaskList`. -/
structure TaskList where
  Tasks : List GlobusTask
deriving DecidableEq, Repr

/-- The mutable state of `GlobusTaskMonitor` (the client and db handles are
external collaborators and carry no monitor state).  The Go field
`finishedGlobusTasks map[string]bool` is modelled by its key set. -/
structure GlobusTaskMonitor where
  endpointID : GoStr
  finishedGlobusTasks : List GoStr
  lastProcessedTime : Int
deriving DecidableEq, Repr

/-- `NewGlobusTaskMonitor`: empty dedup set, watermark fixed at
`time.Date(2009, time.November, 10, 23, 0, 0, 0, time.UTC)`. -/
def NewGlobusTaskMonitor (endpointID : GoStr) : GlobusTaskMonitor :=
  { endpointID := endpointID
    finishedGlobusTasks := []
    lastProcessedTime := goTimeDate 2009 11 10 23 0 0 }

/-- Observable actions of one monitor run: the log lines the active code can
emit.  `handOff id` is the `log.Infof("Processing globus upload %s", id)` at
the point the spec calls the downstream hand-off (everything beyond that log
is commented out in the source). -/
inductive Event where
  | logQueryError (e : GoStr)
  | logParseError (t : GoStr)
  | logFetchError (e : GoStr)
  | logInvalidPath (p : GoStr)
  | handOff (id : GoStr)
deriving DecidableEq, Repr

/-- `(m *GlobusTaskMonitor) processTask`: admit a task exactly when its
completion timestamp parses as RFC 3339 and `taskCompletionTime.After(m.lastProcessedTime)`.
A parse failure logs and yields `false` (the log is surfaced by `stepTask`). -/
def processTask (m : GlobusTaskMonitor) (task : GlobusTask) : Bool :=
  match parseRFC3339 task.CompletionTime with
  | none => false
  | some t => m.lastProcessedTime < t

/-- `(m *GlobusTaskMonitor) processTransfers`: looks only at the first
transfer item.  `transfers.Transfers[0]` panics on an empty slice (modelled as
`none`; the single caller guards with a length check).  An empty destination
path is a download and returns silently; a destination with fewer than five
`/`-pieces logs `Invalid globus DestinationPath`; a routing id already in
`finishedGlobusTasks` returns silently; otherwise the hand-off point logs
`Processing globus upload <id>`.  No branch of the active code mutates the
monitor. -/
def processTransfers (m : GlobusTaskMonitor) (transfers : TransferItems) :
    Option (GlobusTaskMonitor × List Event) :=
  match transfers.Transfers with
  | [] => none
  | transferItem :: _ =>
    if transferItem.DestinationPath = [] then some (m, [])
    else
      let pieces := splitOnSlash transferItem.DestinationPath
      if pieces.length < 5 then some (m, [Event.logInvalidPath transferItem.DestinationPath])
      else
        let id := pieces.getD 2 []
        if id ∈ m.finishedGlobusTasks then some (m, [])
        else some (m, [Event.handOff id])

/-- One iteration of the `for _, task := range tasks.Tasks` body of
`retrieveAndProcessUploads`.  `fetch` is the external call
`GetTaskSuccessfulTransfers(task.TaskID, 0)`; `done k` is what the per-task
`select` observes of `c.Done()`.  In the source that `select` reads

    select { case <-c.Done(): break; default: }

and Go's `break` terminates the `select` statement, not the surrounding range
loop, so both branches fall through identically — hence the two equal arms of
the final `if`. -/
def stepTask (fetch : GoStr → Except GoStr TransferItems) (done : Nat → Bool)
    (m : GlobusTaskMonitor) (task : GlobusTask) (k : Nat) : GlobusTaskMonitor × List Event :=
  if processTask m task = false then
    (m, match parseRFC3339 task.CompletionTime with
        | none => [Event.logParseError task.CompletionTime]
        | some _ => [])
  else
    match fetch task.TaskID with
    | Except.error e => (m, [Event.logFetchError e])
    | Except.ok transfers =>
      if transfers.Transfers.length = 0 then (m, [])
      else
        let r := (processTransfers m transfers).getD (m, [])
        if done k then r else r

/-- The `for _, task := range tasks.Tasks` loop of `retrieveAndProcessUploads`,
threading the monitor state and collecting the emitted events. -/
def processTaskList (fetch : GoStr → Except GoStr TransferItems) (done : Nat → Bool) :
    GlobusTaskMonitor → List GlobusTask → Nat → GlobusTaskMonitor × List Event
  | m, [], _ => (m, [])
  | m, task :: rest, k =>
    let r := stepTask fetch done m task k
    let r2 := processTaskList fetch done r.1 rest (k + 1)
    (r2.1, r.2 ++ r2.2)

/-- `(m *GlobusTaskMonitor) retrieveAndProcessUploads`: `queryResult` is the
outcome of `client.GetEndpointTaskList(m.endpointID, taskFilter)`.  On error
the cycle logs and returns with the monitor untouched; otherwise every
returned task is processed in order. -/
def retrieveAndProcessUploads (m : GlobusTaskMonitor) (queryResult : Except GoStr TaskList)
    (fetch : GoStr → Except GoStr TransferItems) (done : Nat → Bool) :
    GlobusTaskMonitor × List Event :=
  match queryResult with
  | Except.error e => (m, [Event.logQueryError e])
  | Except.ok tasks => processTaskList fetch done m tasks.Tasks 0

/-- The external observations consumed by one poll cycle of the monitor loop:
the task-list query outcome, the per-task fetch oracle, the per-task `select`
view of `ctx.Done()`, and whether `ctx.Done()` fires at the sleep boundary
after the cycle. -/
structure CycleInput where
  queryResult : Except GoStr TaskList
  fetch : GoStr → Except GoStr TransferItems
  done : Nat → Bool
  shutdown : Bool

/-- `(m *GlobusTaskMonitor) monitorAndProcessTasks`: run a cycle, then either
shut down at the sleep-boundary `select` or sleep and loop.  The infinite loop
is observed along the finite list of cycle inputs. -/
def monitorAndProcessTasks (m : GlobusTaskMonitor) : List CycleInput → GlobusTaskMonitor × List Event
  | [] => (m, [])
  | c :: rest =>
    let r := retrieveAndProcessUploads m c.queryResult c.fetch c.done
    if c.shutdown then r
    else
      let r2 := monitorAndProcessTasks r.1 rest
      (r2.1, r.2 ++ r2.2)

/-- Monitor states arising from construction followed by any sequence of poll
cycles with arbitrary external observations. -/
inductive Reachable : GlobusTaskMonitor → Prop where
  | init (endpointID : GoStr) : Reachable (NewGlobusTaskMonitor endpointID)
  | step (m : GlobusTaskMonitor) (q : Except GoStr TaskList)
      (fetch : GoStr → Except GoStr TransferItems) (done : Nat → Bool) :
      Reachable m → Reachable (retrieveAndProcessUploads m q fetch done).1

/-! Concrete fixtures used by the witness and counterexample scenarios. -/
def fixtureTask1 : GlobusTask := ⟨"t1".toList, "2023-05-01T10:00:00Z".toList⟩

def fixtureTask2 : GlobusTask := ⟨"t2".toList, "2023-05-01T11:00:00Z".toList⟩

def fixtureBadTask : GlobusTask := ⟨"t3".toList, "garbage".toList⟩

def fixtureFetch : GoStr → Except GoStr TransferItems := fun tid =>
  if tid = ("t1".toList) then
    Except.ok ⟨[⟨"/src/a".toList, "/__transfers/42/7/x/a.txt".toList⟩]⟩
  else Except.ok ⟨[⟨"/src/b".toList, "/__transfers/43/7/x/b.txt".toList⟩]⟩

def fixtureCycle : CycleInput := ⟨Except.ok ⟨[fixtureTask1]⟩, fixtureFetch, fun _ => false, false⟩

/-! Lemmas about splitting and joining on `/`. -/

theorem splitOnSlash_ne_nil (s : GoStr) : splitOnSlash s ≠ [] := by
  cases s with
  | nil => simp [splitOnSlash]
  | cons c rest =>
    simp only [splitOnSlash]
    split
    · simp
    · split <;> simp

theorem splitOnSlash_cons_slash (s : GoStr) : splitOnSlash ('/' :: s) = [] :: splitOnSlash s := by
  simp [splitOnSlash]

theorem splitOnSlash_cons_ne (c : Char) (s : GoStr) (hc : c ≠ '/') :
    splitOnSlash (c :: s) = (c :: (splitOnSlash s).headD []) :: (splitOnSlash s).tail := by
  simp only [splitOnSlash, if_neg hc]
  cases h : splitOnSlash s with
  | nil => exact absurd h (splitOnSlash_ne_nil s)
  | cons hd tl => simp

theorem splitOnSlash_append (a s : GoStr) (ha : '/' ∉ a) :
    splitOnSlash (a ++ s) = (a ++ (splitOnSlash s).headD []) :: (splitOnSlash s).tail := by
  induction a with
  | nil =>
    simp only [List.nil_append]
    cases h : splitOnSlash s with
    | nil => exact absurd h (splitOnSlash_ne_nil s)
    | cons hd tl => simp
  | cons c a ih =>
    have hc : c ≠ '/' := fun h => ha (h ▸ List.mem_cons_self c a)
    have ha' : '/' ∉ a := fun h => ha (List.mem_cons_of_mem _ h)
    rw [List.cons_append, splitOnSlash_cons_ne c _ hc, ih ha']
    simp

theorem splitOnSlash_eq_self (a : GoStr) (ha : '/' ∉ a) : splitOnSlash a = [a] := by
  have h := splitOnSlash_append a [] ha
  simpa [splitOnSlash] using h

theorem splitOnSlash_joinSlash (cs : List GoStr) (hne : cs ≠ [])
    (h : ∀ c ∈ cs, '/' ∉ c) : splitOnSlash (joinSlash cs) = cs := by
  induction cs with
  | nil => exact absurd rfl hne
  | cons c rest ih =>
    cases rest with
    | nil => exact splitOnSlash_eq_self c (h c (List.mem_cons_self c []))
    | cons c2 rest2 =>
      have hjoin : joinSlash (c :: c2 :: rest2) = c ++ '/' :: joinSlash (c2 :: rest2) := rfl
      rw [hjoin, splitOnSlash_append c _ (h c (List.mem_cons_self c _)),
        splitOnSlash_cons_slash,
        ih (by simp) (fun x hx => h x (List.mem_cons_of_mem _ hx))]
      simp

theorem joinSlash_append (xs ys : List GoStr) (hx : xs ≠ []) (hy : ys ≠ []) :
    joinSlash (xs ++ ys) = joinSlash xs ++ '/' :: joinSlash ys := by
  induction xs with
  | nil => exact absurd rfl hx
  | cons x xs ih =>
    cases xs with
    | nil =>
      cases ys with
      | nil => exact absurd rfl hy
      | cons y ys => simp [joinSlash]
    | cons x2 xs2 =>
      have h1 : joinSlash ((x :: x2 :: xs2) ++ ys) = x ++ '/' :: joinSlash ((x2 :: xs2) ++ ys) := rfl
      have h2 : joinSlash (x :: x2 :: xs2) = x ++ '/' :: joinSlash (x2 :: xs2) := rfl
      rw [h1, h2, ih (by simp)]
      simp

theorem splitOnSlash_noslash (s : GoStr) : ∀ c ∈ splitOnSlash s, '/' ∉ c := by
  induction s with
  | nil => intro c hc; simp [splitOnSlash] at hc; simp [hc]
  | cons a rest ih =>
    intro c hc
    by_cases ha : a = '/'
    · subst ha
      rw [splitOnSlash_cons_slash] at hc
      rcases List.mem_cons.mp hc with rfl | hc
      · simp
      · exact ih c hc
    · rw [splitOnSlash_cons_ne a rest ha] at hc
      rcases List.mem_cons.mp hc with rfl | hc
      · intro hmem
        rcases List.mem_cons.mp hmem with h | h
        · exact ha h.symm
        · cases hsp : splitOnSlash rest with
          | nil => exact absurd hsp (splitOnSlash_ne_nil rest)
          | cons hd tl =>
            rw [hsp] at h
            exact ih hd (by rw [hsp]; exact List.mem_cons_self hd tl) h
      · exact ih c (List.mem_of_mem_tail hc)

/-! Lemmas about `filepath.Clean`. -/

theorem cleanRev_nil_comp (acc rest : List GoStr) :
    cleanRev true acc ([] :: rest) = cleanRev true acc rest := by
  simp [cleanRev]

theorem cleanRev_good_comp (c : GoStr) (hc : goodComp c) (acc rest : List GoStr) :
    cleanRev true acc (c :: rest) = cleanRev true (c :: acc) rest := by
  obtain ⟨h1, h2, h3, _⟩ := hc
  simp only [cleanRev]
  rw [if_neg (not_or.mpr ⟨h1, h2⟩), if_neg h3]

theorem cleanRev_all_good (P : List GoStr) (hP : ∀ c ∈ P, goodComp c) :
    ∀ acc, cleanRev true acc P = P.reverse ++ acc := by
  induction P with
  | nil => intro acc; rfl
  | cons c rest ih =>
    intro acc
    rw [cleanRev_good_comp c (hP c (List.mem_cons_self c rest)),
      ih (fun x hx => hP x (List.mem_cons_of_mem _ hx))]
    simp

theorem cleanRev_goods_trailing_nil (P : List GoStr) (hP : ∀ c ∈ P, goodComp c) :
    ∀ acc, cleanRev true acc (P ++ [[]]) = P.reverse ++ acc := by
  induction P with
  | nil => intro acc; rw [List.nil_append, cleanRev_nil_comp]; rfl
  | cons c rest ih =>
    intro acc
    rw [List.cons_append, cleanRev_good_comp c (hP c (List.mem_cons_self c rest)),
      ih (fun x hx => hP x (List.mem_cons_of_mem _ hx))]
    simp

theorem cleanRev_output_good (P : List GoStr) (hP : ∀ c ∈ P, '/' ∉ c) :
    ∀ acc, (∀ a ∈ acc, goodComp a) → ∀ x ∈ cleanRev true acc P, goodComp x := by
  induction P with
  | nil => intro acc hacc x hx; exact hacc x hx
  | cons c rest ih =>
    intro acc hacc x hx
    have hrest : ∀ y ∈ rest, '/' ∉ y := fun y hy => hP y (List.mem_cons_of_mem _ hy)
    by_cases h1 : c = [] ∨ c = ['.']
    · rw [show cleanRev true acc (c :: rest) = cleanRev true acc rest from by
        simp only [cleanRev, if_pos h1]] at hx
      exact ih hrest acc hacc x hx
    · by_cases h2 : c = ['.', '.']
      · cases acc with
        | nil =>
          rw [show cleanRev true [] (c :: rest) = cleanRev true [] rest from by
            simp only [cleanRev, if_neg h1, if_pos h2]; rfl] at hx
          exact ih hrest [] (by simp) x hx
        | cons a as =>
          have ha : goodComp a := hacc a (List.mem_cons_self a as)
          rw [show cleanRev true (a :: as) (c :: rest) = cleanRev true as rest from by
            simp only [cleanRev, if_neg h1, if_pos h2, if_neg ha.2.2.1]] at hx
          exact ih hrest as (fun y hy => hacc y (List.mem_cons_of_mem _ hy)) x hx
      · have hc : goodComp c :=
          ⟨fun h => h1 (Or.inl h), fun h => h1 (Or.inr h), h2, hP c (List.mem_cons_self c rest)⟩
        rw [cleanRev_good_comp c hc] at hx
        refine ih hrest (c :: acc) (fun y hy => ?_) x hx
        rcases List.mem_cons.mp hy with rfl | hy
        · exact hc
        · exact hacc y hy

theorem clean_rooted (s : GoStr) :
    clean ('/' :: s) = '/' :: joinSlash ((cleanRev true [] (splitOnSlash ('/' :: s))).reverse) := by
  simp [clean]

theorem clean_fixed_rooted (s : GoStr) (h : clean s = s) (hr : s.head? = some '/') :
    ∃ comps, (∀ c ∈ comps, goodComp c) ∧ s = '/' :: joinSlash comps := by
  cases s with
  | nil => simp at hr
  | cons c rest =>
    have hc : c = '/' := by simpa using hr
    subst hc
    refine ⟨(cleanRev true [] (splitOnSlash ('/' :: rest))).reverse, ?_, ?_⟩
    · intro x hx
      exact cleanRev_output_good _ (splitOnSlash_noslash _) [] (by simp) x (List.mem_reverse.mp hx)
    · conv_lhs => rw [← h]
      exact clean_rooted rest

/-! Lemmas about decimal printing and parsing. -/

theorem natToCharsCore_acc (fuel n : Nat) :
    ∀ acc, natToCharsCore fuel n acc = natToCharsCore fuel n [] ++ acc := by
  induction fuel generalizing n with
  | zero => intro acc; rfl
  | succ fuel ih =>
    intro acc
    by_cases h : n < 10
    · simp [natToCharsCore, h]
    · simp only [natToCharsCore, if_neg h]
      rw [ih (n / 10), ih (n / 10) [Char.ofNat (48 + n % 10)]]
      simp

theorem isDigitCh_ofNat_digit (r : Nat) (h : r < 10) : isDigitCh (Char.ofNat (48 + r)) = true := by
  interval_cases r <;> decide

theorem digitVal_ofNat_digit (r : Nat) (h : r < 10) : digitVal (Char.ofNat (48 + r)) = r := by
  interval_cases r <;> decide

theorem natToCharsCore_digits (fuel n : Nat) (h : n < fuel) :
    ∀ c ∈ natToCharsCore fuel n [], isDigitCh c = true := by
  induction fuel generalizing n with
  | zero => exact absurd h (Nat.not_lt_zero n)
  | succ fuel ih =>
    intro c hc
    by_cases h10 : n < 10
    · simp only [natToCharsCore, if_pos h10] at hc
      rcases List.mem_cons.mp hc with rfl | hc
      · exact isDigitCh_ofNat_digit n h10
      · simp at hc
    · simp only [natToCharsCore, if_neg h10] at hc
      rw [natToCharsCore_acc] at hc
      have hdiv : n / 10 < fuel := by
        have := Nat.div_lt_self (show 0 < n by omega) (show 1 < 10 by omega)
        omega
      rcases List.mem_append.mp hc with hc | hc
      · exact ih (n / 10) hdiv c hc
      · rcases List.mem_cons.mp hc with rfl | hc
        · exact isDigitCh_ofNat_digit _ (Nat.mod_lt n (by omega))
        · simp at hc

theorem digitsValCore_append (xs ys : GoStr) :
    ∀ acc, digitsValCore acc (xs ++ ys) =
      match digitsValCore acc xs with
      | none => none
      | some m => digitsValCore m ys := by
  induction xs with
  | nil => intro acc; rfl
  | cons c rest ih =>
    intro acc
    simp only [List.cons_append, digitsValCore]
    by_cases h : isDigitCh c = true
    · rw [if_pos h, if_pos h]; exact ih _
    · rw [if_neg h, if_neg h]

theorem natToCharsCore_val (fuel n : Nat) (h : n < fuel) :
    ∃ B, 0 < B ∧ ∀ acc, digitsValCore acc (natToCharsCore fuel n []) = some (acc * B + n) := by
  induction fuel generalizing n with
  | zero => exact absurd h (Nat.not_lt_zero n)
  | succ fuel ih =>
    by_cases h10 : n < 10
    · refine ⟨10, by omega, fun acc => ?_⟩
      simp only [natToCharsCore, if_pos h10]
      simp [digitsValCore, isDigitCh_ofNat_digit n h10, digitVal_ofNat_digit n h10]
    · have hdiv : n / 10 < fuel := by
        have := Nat.div_lt_self (show 0 < n by omega) (show 1 < 10 by omega)
        omega
      obtain ⟨B, hB, hval⟩ := ih (n / 10) hdiv
      refine ⟨B * 10, by positivity, fun acc => ?_⟩
      simp only [natToCharsCore, if_neg h10]
      rw [natToCharsCore_acc, digitsValCore_append, hval acc]
      have hm : n % 10 < 10 := Nat.mod_lt n (by omega)
      simp only [digitsValCore, isDigitCh_ofNat_digit _ hm, digitVal_ofNat_digit _ hm, if_pos]
      congr 1
      calc (acc * B + n / 10) * 10 + n % 10
          = acc * B * 10 + (n / 10 * 10 + n % 10) := by ring
        _ = acc * (B * 10) + n := by rw [Nat.mul_assoc]; congr 1; omega

theorem natToChars_ne_nil (n : Nat) : natToChars n ≠ [] := by
  unfold natToChars
  by_cases h10 : n < 10
  · simp [natToCharsCore, h10]
  · simp only [natToCharsCore, if_neg h10]
    rw [natToCharsCore_acc]
    simp

theorem natToChars_digits (n : Nat) : ∀ c ∈ natToChars n, isDigitCh c = true :=
  natToCharsCore_digits (n + 1) n (by omega)

theorem digitsVal_natToChars (n : Nat) : digitsVal (natToChars n) = some n := by
  obtain ⟨B, hB, hval⟩ := natToCharsCore_val (n + 1) n (by omega)
  cases hchars : natToChars n with
  | nil => exact absurd hchars (natToChars_ne_nil n)
  | cons c rest =>
    have hv := hval 0
    rw [show natToCharsCore (n + 1) n [] = natToChars n from rfl, hchars] at hv
    simpa [digitsVal] using hv

theorem atoi_natToChars (n : Nat) : atoi (natToChars n) = (n : Int) := by
  cases hchars : natToChars n with
  | nil => exact absurd hchars (natToChars_ne_nil n)
  | cons c rest =>
    have hdig : isDigitCh c = true := by
      apply natToChars_digits n
      rw [hchars]
      exact List.mem_cons_self c rest
    have hplus : c ≠ '+' := by
      intro h
      rw [h] at hdig
      exact absurd hdig (by decide)
    have hminus : c ≠ '-' := by
      intro h
      rw [h] at hdig
      exact absurd hdig (by decide)
    have hval := digitsVal_natToChars n
    rw [hchars] at hval
    simp [atoi, hplus, hminus, hval]

theorem goodComp_natToChars (n : Nat) : goodComp (natToChars n) := by
  have hd := natToChars_digits n
  refine ⟨natToChars_ne_nil n, ?_, ?_, ?_⟩
  · intro h
    have := hd '.' (by rw [h]; simp)
    exact absurd this (by decide)
  · intro h
    have := hd '.' (by rw [h]; simp)
    exact absurd this (by decide)
  · intro h
    have := hd '/' h
    exact absurd this (by decide)

theorem intToChars_pos (i : Int) (h : 0 < i) : intToChars i = natToChars i.toNat := by
  rw [intToChars, if_neg (by omega)]

theorem atoi_intToChars_pos (i : Int) (h : 0 < i) : atoi (intToChars i) = i := by
  rw [intToChars_pos i h, atoi_natToChars]
  exact Int.toNat_of_nonneg (by omega)

theorem goodComp_intToChars_pos (i : Int) (h : 0 < i) : goodComp (intToChars i) := by
  rw [intToChars_pos i h]
  exact goodComp_natToChars _

/-! The round-trip computation for the path codec. -/

theorem splitOnSlash_comp_slash (a s : GoStr) (ha : '/' ∉ a) :
    splitOnSlash (a ++ '/' :: s) = a :: splitOnSlash s := by
  rw [splitOnSlash_append a _ ha, splitOnSlash_cons_slash]
  simp

theorem toFSPath_clean (cat us ps : GoStr) (comps : List GoStr)
    (hcat : goodComp cat) (hus : goodComp us) (hps : goodComp ps)
    (hcomps : ∀ c ∈ comps, goodComp c) :
    goJoin [['/'], cat, us ++ '/' :: ps, '/' :: joinSlash comps, []] =
      '/' :: joinSlash (cat :: us :: ps :: comps) := by
  have h0 : goJoin [['/'], cat, us ++ '/' :: ps, '/' :: joinSlash comps, []] =
      clean (joinSlash [['/'], cat, us ++ '/' :: ps, '/' :: joinSlash comps, []]) := rfl
  have hJ : joinSlash [['/'], cat, us ++ '/' :: ps, '/' :: joinSlash comps, []] =
      '/' :: '/' :: (cat ++ '/' :: (us ++ '/' :: (ps ++ '/' :: ('/' :: (joinSlash comps ++ ['/']))))) := by
    show ['/'] ++ '/' :: (cat ++ '/' :: ((us ++ '/' :: ps) ++ '/' :: (('/' :: joinSlash comps) ++ '/' :: []))) = _
    simp
  rw [h0, hJ, clean_rooted]
  have hsplit : splitOnSlash
      ('/' :: '/' :: (cat ++ '/' :: (us ++ '/' :: (ps ++ '/' :: ('/' :: (joinSlash comps ++ ['/'])))))) =
      [] :: [] :: cat :: us :: ps :: [] :: splitOnSlash (joinSlash comps ++ ['/']) := by
    rw [splitOnSlash_cons_slash, splitOnSlash_cons_slash,
      splitOnSlash_comp_slash cat _ hcat.2.2.2, splitOnSlash_comp_slash us _ hus.2.2.2,
      splitOnSlash_comp_slash ps _ hps.2.2.2, splitOnSlash_cons_slash]
  rw [hsplit]
  cases comps with
  | nil =>
    have htail : splitOnSlash (joinSlash ([] : List GoStr) ++ ['/']) = [[], []] := by decide
    rw [htail, cleanRev_nil_comp, cleanRev_nil_comp, cleanRev_good_comp cat hcat,
      cleanRev_good_comp us hus, cleanRev_good_comp ps hps, cleanRev_nil_comp,
      cleanRev_nil_comp, cleanRev_nil_comp]
    simp [joinSlash]
  | cons c1 rest1 =>
    have hne : (c1 :: rest1 : List GoStr) ≠ [] := by simp
    have htail : joinSlash (c1 :: rest1) ++ ['/'] = joinSlash ((c1 :: rest1) ++ [[]]) := by
      rw [joinSlash_append _ _ hne (by simp)]
      rfl
    have hsp2 : splitOnSlash (joinSlash ((c1 :: rest1) ++ [[]])) = (c1 :: rest1) ++ [[]] := by
      refine splitOnSlash_joinSlash _ (by simp) ?_
      intro x hx
      rcases List.mem_append.mp hx with hx | hx
      · exact (hcomps x hx).2.2.2
      · rcases List.mem_cons.mp hx with rfl | hx
        · simp
        · simp at hx
    rw [htail, hsp2, cleanRev_nil_comp, cleanRev_nil_comp, cleanRev_good_comp cat hcat,
      cleanRev_good_comp us hus, cleanRev_good_comp ps hps, cleanRev_nil_comp,
      cleanRev_goods_trailing_nil _ hcomps]
    simp [joinSlash]

theorem goJoin_root_join (comps : List GoStr) (hcomps : ∀ c ∈ comps, goodComp c)
    (hne : comps ≠ []) :
    goJoin [['/'], joinSlash comps] = '/' :: joinSlash comps := by
  have h0 : goJoin [['/'], joinSlash comps] = clean (joinSlash [['/'], joinSlash comps]) := rfl
  have hJ : joinSlash [['/'], joinSlash comps] = '/' :: '/' :: joinSlash comps := rfl
  rw [h0, hJ, clean_rooted, splitOnSlash_cons_slash, splitOnSlash_cons_slash,
    splitOnSlash_joinSlash comps hne (fun c hc => (hcomps c hc).2.2.2),
    cleanRev_nil_comp, cleanRev_nil_comp, cleanRev_all_good comps hcomps]
  simp

theorem splitOnSlash_root_join (comps : List GoStr) (hcomps : ∀ c ∈ comps, '/' ∉ c)
    (hne : comps ≠ []) :
    splitOnSlash ('/' :: joinSlash comps) = [] :: comps := by
  rw [splitOnSlash_cons_slash, splitOnSlash_joinSlash comps hne hcomps]

/-- Zeta-expanded defining equation of the decoder, convenient for rewriting. -/
theorem ToTransferPathContext_parts (s : GoStr) :
    ToTransferPathContext s =
      if 2 ≤ (splitN s 5).length then
        some ⟨(splitN s 5).getD 1 [],
          (if 2 < (splitN s 5).length then atoi ((splitN s 5).getD 2 []) else 0),
          (if 3 < (splitN s 5).length then atoi ((splitN s 5).getD 3 []) else 0),
          (if (splitN s 5).length = 5 then goJoin [['/'], (splitN s 5).getD 4 []]
           else if (if 2 < (splitN s 5).length then atoi ((splitN s 5).getD 2 []) else 0) ≠ 0 ∧
               (if 3 < (splitN s 5).length then atoi ((splitN s 5).getD 3 []) else 0) ≠ 0
             then ['/'] else [])⟩
      else none := rfl

/-- C1 (counterexample to the claim as stated): the round-trip law fails for a
`TransferPathContext` whose fields satisfy every condition of the claim — the
category `"a"` is a non-empty string, the ids 1 and 2 are positive, and the
relative path `"/b/"` is `/`-rooted — because `filepath.Join` runs
`filepath.Clean`, which drops the trailing slash: the encoded path is
`"/a/1/2/b"` and decodes with relative path `"/b"`, not `"/b/"`. -/
theorem c1_counterexample :
    ToTransferPathContext (ToFSPath ⟨("a".toList), 1, 2, ("/b/".toList)⟩ []) ≠
      some ⟨("a".toList), 1, 2, ("/b/".toList)⟩ := by decide

/-- C1 (amended): the codec round-trip law
`ToTransferPathContext (ctx.ToFSPath "") = ctx` holds for every
`TransferPathContext` whose category is a single clean path component (a
non-empty string without `/` that is neither `.` nor `..`), whose ids are
positive, and whose relative path is `/`-rooted and `filepath.Clean`-normal
(`clean ctx.Path = ctx.Path`); a logically empty relative path is the
canonical `"/"`, which is such a path. -/
theorem c1_roundtrip_amended (ctx : TransferPathContext)
    (hcat : goodComp ctx.TransferType)
    (hu : 0 < ctx.UserID) (hp : 0 < ctx.ProjectID)
    (hroot : ctx.Path.head? = some '/')
    (hclean : clean ctx.Path = ctx.Path) :
    ToTransferPathContext (ToFSPath ctx []) = some ctx := by
  obtain ⟨cat, u, p, path⟩ := ctx
  dsimp only at hcat hu hp hroot hclean ⊢
  obtain ⟨comps, hcomps, hpath⟩ := clean_fixed_rooted path hclean hroot
  subst hpath
  have hus : goodComp (intToChars u) := goodComp_intToChars_pos u hu
  have hps : goodComp (intToChars p) := goodComp_intToChars_pos p hp
  have hfs : ToFSPath ⟨cat, u, p, '/' :: joinSlash comps⟩ [] =
      '/' :: joinSlash (cat :: intToChars u :: intToChars p :: comps) :=
    toFSPath_clean cat _ _ comps hcat hus hps hcomps
  rw [hfs]
  have hallgood : ∀ c ∈ (cat :: intToChars u :: intToChars p :: comps), '/' ∉ c := by
    intro c hc
    rcases List.mem_cons.mp hc with rfl | hc
    · exact hcat.2.2.2
    rcases List.mem_cons.mp hc with rfl | hc
    · exact hus.2.2.2
    rcases List.mem_cons.mp hc with rfl | hc
    · exact hps.2.2.2
    · exact (hcomps c hc).2.2.2
  have hsp := splitOnSlash_root_join _ hallgood (by simp)
  cases comps with
  | nil =>
    have hsplitN : splitN ('/' :: joinSlash [cat, intToChars u, intToChars p]) 5 =
        [[], cat, intToChars u, intToChars p] := by
      simp only [splitN, hsp]
      norm_num
    rw [ToTransferPathContext_parts, hsplitN]
    simp only [show ([[], cat, intToChars u, intToChars p] : List GoStr).length = 4 from rfl,
      show ([[], cat, intToChars u, intToChars p] : List GoStr).getD 1 [] = cat from rfl,
      show ([[], cat, intToChars u, intToChars p] : List GoStr).getD 2 [] = intToChars u from rfl,
      show ([[], cat, intToChars u, intToChars p] : List GoStr).getD 3 [] = intToChars p from rfl,
      atoi_intToChars_pos u hu, atoi_intToChars_pos p hp]
    simp [joinSlash, hu.ne', hp.ne']
  | cons c1 rest1 =>
    have hsplitN : splitN ('/' :: joinSlash (cat :: intToChars u :: intToChars p :: c1 :: rest1)) 5 =
        [[], cat, intToChars u, intToChars p, joinSlash (c1 :: rest1)] := by
      simp only [splitN, hsp]
      cases rest1 with
      | nil => norm_num [joinSlash]
      | cons c2 rest2 =>
        rw [if_neg (by simp)]
        simp [List.take, List.drop, joinSlash]
    rw [ToTransferPathContext_parts, hsplitN]
    simp only [
      show ([[], cat, intToChars u, intToChars p, joinSlash (c1 :: rest1)] : List GoStr).length = 5 from rfl,
      show ([[], cat, intToChars u, intToChars p, joinSlash (c1 :: rest1)] : List GoStr).getD 1 [] = cat from rfl,
      show ([[], cat, intToChars u, intToChars p, joinSlash (c1 :: rest1)] : List GoStr).getD 2 [] = intToChars u from rfl,
      show ([[], cat, intToChars u, intToChars p, joinSlash (c1 :: rest1)] : List GoStr).getD 3 [] = intToChars p from rfl,
      show ([[], cat, intToChars u, intToChars p, joinSlash (c1 :: rest1)] : List GoStr).getD 4 [] = joinSlash (c1 :: rest1) from rfl,
      atoi_intToChars_pos u hu, atoi_intToChars_pos p hp]
    rw [goJoin_root_join (c1 :: rest1) hcomps (by simp)]
    simp

/-- C1, witness: the amended round-trip law applied at a fully concrete
context with category `"globus"`, ids 5 and 9, and relative path `"/data/f.txt"`. -/
theorem c1_roundtrip_witness :
    ToTransferPathContext (ToFSPath ⟨("globus".toList), 5, 9, ("/data/f.txt".toList)⟩ []) =
      some ⟨("globus".toList), 5, 9, ("/data/f.txt".toList)⟩ :=
  c1_roundtrip_amended ⟨("globus".toList), 5, 9, ("/data/f.txt".toList)⟩
    (by decide) (by decide) (by decide) (by decide) (by decide)

/-! Totality of the decoder on inputs containing a slash. -/

theorem splitOnSlash_length_two (s : GoStr) (h : '/' ∈ s) : 2 ≤ (splitOnSlash s).length := by
  induction s with
  | nil => simp at h
  | cons c rest ih =>
    by_cases hc : c = '/'
    · subst hc
      rw [splitOnSlash_cons_slash]
      have h1 : 1 ≤ (splitOnSlash rest).length :=
        List.length_pos.mpr (splitOnSlash_ne_nil rest)
      simp only [List.length_cons]
      omega
    · have hr : '/' ∈ rest := by
        rcases List.mem_cons.mp h with h | h
        · exact absurd h.symm hc
        · exact h
      rw [splitOnSlash_cons_ne c rest hc]
      have h2 := ih hr
      cases hsp : splitOnSlash rest with
      | nil => exact absurd hsp (splitOnSlash_ne_nil rest)
      | cons hd tl =>
        rw [hsp] at h2
        simp only [List.length_cons] at h2
        simp only [List.tail_cons, List.length_cons]
        omega

theorem splitN_length_two (s : GoStr) (h : '/' ∈ s) : 2 ≤ (splitN s 5).length := by
  have h2 := splitOnSlash_length_two s h
  by_cases h5 : (splitOnSlash s).length ≤ 5
  · have he : splitN s 5 = splitOnSlash s := by
      simp only [splitN]
      rw [if_pos h5]
    rw [he]
    exact h2
  · have he : splitN s 5 =
        (splitOnSlash s).take (5 - 1) ++ [joinSlash ((splitOnSlash s).drop (5 - 1))] := by
      simp only [splitN]
      rw [if_neg h5]
    rw [he]
    simp only [List.length_append, List.length_take, List.length_cons, List.length_nil]
    omega

/-- C2 (counterexample to the claim as stated): decoding the empty string does
fail.  `strings.SplitN("", "/", 5)` returns the one-element slice `[""]`, so
the unconditional read of `pathParts[1]` panics with an index-out-of-range
error (modelled as `none`); the claim lists `""` among the inputs that must
never fail. -/
theorem c2_counterexample : ToTransferPathContext ("".toList) = none := by decide

/-- C2 (amended): for every input string that contains at least one `/` —
in particular `"/"`, `"/cat"`, and `"/cat/12"` — `ToTransferPathContext`
returns a context without failing; unresolved fields are at their zero value
(`tenantID = 0`, `projectID = 0`, empty relative path) and the category is
whatever prefix was present. -/
theorem c2_amended (s : GoStr) (h : '/' ∈ s) :
    (ToTransferPathContext s).isSome = true ∧
    ToTransferPathContext ("/".toList) = some ⟨[], 0, 0, []⟩ ∧
    ToTransferPathContext ("/cat".toList) = some ⟨("cat".toList), 0, 0, []⟩ ∧
    ToTransferPathContext ("/cat/12".toList) = some ⟨("cat".toList), 12, 0, []⟩ := by
  refine ⟨?_, by decide, by decide, by decide⟩
  rw [ToTransferPathContext_parts, if_pos (splitN_length_two s h)]
  rfl

/-- C2, witness: the amended permissiveness applied at the concrete input `"/ab"`. -/
theorem c2_witness : (ToTransferPathContext ("/ab".toList)).isSome = true :=
  (c2_amended ("/ab".toList) (by decide)).1

/-- C8 (counterexample to the claim as stated): for the input `"x"` the claim
predicts a decoded relative path equal to the empty string (no 5th component,
ids zero), but the decoder reaches no result at all: the input has no `/`, so
the read of `pathParts[1]` panics (modelled as `none`). -/
theorem c8_counterexample : ToTransferPathContext ("x".toList) = none := by decide

/-- C8 (amended): for every input on which the decoder returns (equivalently,
every input containing a `/`), the decoded relative path follows the stated
policy: with a 5th split component it is `filepath.Join("/", part5)`, the
`/`-rooted normalization of that component; otherwise it is `"/"` when both
decoded ids are non-zero, and the empty string when they are not. -/
theorem c8_amended (s : GoStr) (ctx : TransferPathContext)
    (h : ToTransferPathContext s = some ctx) :
    ctx.Path =
      if (splitN s 5).length = 5 then goJoin [['/'], (splitN s 5).getD 4 []]
      else if ctx.UserID ≠ 0 ∧ ctx.ProjectID ≠ 0 then ['/'] else [] := by
  rw [ToTransferPathContext_parts] at h
  by_cases hlen : 2 ≤ (splitN s 5).length
  · rw [if_pos hlen] at h
    have h2 := Option.some.inj h
    subst h2
    rfl
  · rw [if_neg hlen] at h
    simp at h

/-- C8, witness: the resolution policy applied at the concrete input
`"/cat/12"`, whose decode has a non-zero tenant id, a zero project id, and no
5th component, hence the empty relative path. -/
theorem c8_witness :
    (⟨("cat".toList), 12, 0, []⟩ : TransferPathContext).Path =
      if (splitN ("/cat/12".toList) 5).length = 5 then
        goJoin [['/'], (splitN ("/cat/12".toList) 5).getD 4 []]
      else if (12 : Int) ≠ 0 ∧ (0 : Int) ≠ 0 then ['/'] else [] :=
  c8_amended ("/cat/12".toList) ⟨("cat".toList), 12, 0, []⟩ (by decide)

/-! Monitor-state immutability and reachability. -/

theorem processTransfers_fst (m : GlobusTaskMonitor) (t : TransferItems)
    (r : GlobusTaskMonitor × List Event) (h : processTransfers m t = some r) : r.1 = m := by
  simp only [processTransfers] at h
  split at h
  · simp at h
  · split at h
    · obtain rfl := Option.some.inj h
      rfl
    · split at h
      · obtain rfl := Option.some.inj h
        rfl
      · split at h
        · obtain rfl := Option.some.inj h
          rfl
        · obtain rfl := Option.some.inj h
          rfl

theorem stepTask_fst (fetch : GoStr → Except GoStr TransferItems) (done : Nat → Bool)
    (m : GlobusTaskMonitor) (task : GlobusTask) (k : Nat) :
    (stepTask fetch done m task k).1 = m := by
  simp only [stepTask]
  split
  · rfl
  · split
    · rfl
    · split
      · rfl
      · rw [ite_self]
        cases hp : processTransfers m _ with
        | none => simp [hp]
        | some r => simp [hp, processTransfers_fst m _ r hp]

theorem processTaskList_fst (fetch : GoStr → Except GoStr TransferItems) (done : Nat → Bool)
    (tasks : List GlobusTask) : ∀ m k, (processTaskList fetch done m tasks k).1 = m := by
  induction tasks with
  | nil => intro m k; rfl
  | cons task rest ih =>
    intro m k
    simp only [processTaskList]
    rw [ih, stepTask_fst]

theorem retrieveAndProcessUploads_fst (m : GlobusTaskMonitor) (q : Except GoStr TaskList)
    (fetch : GoStr → Except GoStr TransferItems) (done : Nat → Bool) :
    (retrieveAndProcessUploads m q fetch done).1 = m := by
  cases q with
  | error e => rfl
  | ok tasks => exact processTaskList_fst fetch done tasks.Tasks m 0

theorem reachable_eq_init (m : GlobusTaskMonitor) (h : Reachable m) :
    ∃ e, m = NewGlobusTaskMonitor e := by
  induction h with
  | init e => exact ⟨e, rfl⟩
  | step m q fetch done hm ih => rw [retrieveAndProcessUploads_fst]; exact ih

/-- C5: watermark immutability — every poll cycle leaves `lastProcessedTime`
unchanged, and on every reachable monitor state it still equals the far-past
value `time.Date(2009, 11, 10, 23, 0, 0, 0, UTC)` fixed by
`NewGlobusTaskMonitor`; the field is read but never written. -/
theorem c5_watermark_immutable (m : GlobusTaskMonitor) (h : Reachable m)
    (q : Except GoStr TaskList) (fetch : GoStr → Except GoStr TransferItems) (done : Nat → Bool) :
    (retrieveAndProcessUploads m q fetch done).1.lastProcessedTime = m.lastProcessedTime ∧
    m.lastProcessedTime = goTimeDate 2009 11 10 23 0 0 := by
  constructor
  · rw [retrieveAndProcessUploads_fst]
  · obtain ⟨e, rfl⟩ := reachable_eq_init m h
    rfl

/-- C5, witness: the freshly constructed monitor, one failing cycle. -/
theorem c5_witness :
    (retrieveAndProcessUploads (NewGlobusTaskMonitor ("ep".toList)) (Except.error [])
        (fun _ => Except.error []) (fun _ => false)).1.lastProcessedTime =
      (NewGlobusTaskMonitor ("ep".toList)).lastProcessedTime ∧
    (NewGlobusTaskMonitor ("ep".toList)).lastProcessedTime = goTimeDate 2009 11 10 23 0 0 :=
  c5_watermark_immutable (NewGlobusTaskMonitor ("ep".toList)) (Reachable.init ("ep".toList))
    (Except.error []) (fun _ => Except.error []) (fun _ => false)

/-- C10 (implicit): the dedup set `finishedGlobusTasks` is never written after
construction — the insertion is commented out in the source — so on every
reachable state the map is empty, cycles leave it empty, and the membership
check before the hand-off suppresses nothing: any first transfer item with a
non-empty destination of at least five `/`-pieces always reaches the hand-off. -/
theorem c10_dedup_never_written (m : GlobusTaskMonitor) (h : Reachable m) :
    m.finishedGlobusTasks = [] ∧
    (∀ q fetch done, (retrieveAndProcessUploads m q fetch done).1.finishedGlobusTasks =
      m.finishedGlobusTasks) ∧
    (∀ ti rest, ti.DestinationPath ≠ [] → 5 ≤ (splitOnSlash ti.DestinationPath).length →
      processTransfers m ⟨ti :: rest⟩ =
        some (m, [Event.handOff ((splitOnSlash ti.DestinationPath).getD 2 [])])) := by
  have hempty : m.finishedGlobusTasks = [] := by
    obtain ⟨e, rfl⟩ := reachable_eq_init m h
    rfl
  refine ⟨hempty, fun q fetch done => by rw [retrieveAndProcessUploads_fst],
    fun ti rest h1 h2 => ?_⟩
  simp only [processTransfers]
  rw [if_neg h1, if_neg (by omega), if_neg (by rw [hempty]; simp)]

/-- C10, witness: on the fresh monitor, a five-piece upload destination is
handed off (the dedup check does not fire). -/
theorem c10_witness :
    processTransfers (NewGlobusTaskMonitor ("ep".toList))
      ⟨[⟨"/src/a".toList, "/__transfers/42/7/x/a.txt".toList⟩]⟩ =
      some (NewGlobusTaskMonitor ("ep".toList), [Event.handOff ("42".toList)]) :=
  (c10_dedup_never_written _ (Reachable.init ("ep".toList))).2.2
    ⟨"/src/a".toList, "/__transfers/42/7/x/a.txt".toList⟩ [] (by decide) (by decide)

/-- C6: cycle isolation under query failure — when `GetEndpointTaskList`
errors, the cycle only logs, no task is processed, the monitor state
(watermark and dedup set) is exactly the input state, and the loop goes on to
run the following cycles from that same state. -/
theorem c6_cycle_isolation (m : GlobusTaskMonitor) (e : GoStr)
    (fetch : GoStr → Except GoStr TransferItems) (done : Nat → Bool) (rest : List CycleInput) :
    retrieveAndProcessUploads m (Except.error e) fetch done = (m, [Event.logQueryError e]) ∧
    monitorAndProcessTasks m (⟨Except.error e, fetch, done, false⟩ :: rest) =
      ((monitorAndProcessTasks m rest).1,
        Event.logQueryError e :: (monitorAndProcessTasks m rest).2) := by
  exact ⟨rfl, rfl⟩

/-- C7: watermark admission filter — a task is admitted iff its completion
timestamp parses as RFC 3339 to an instant strictly after the watermark, and a
non-admitted task is only logged on a parse failure and is never handed to the
fetch/correlation logic (its step produces no fetch, no path split, no
hand-off). -/
theorem c7_admission (m : GlobusTaskMonitor) (task : GlobusTask)
    (fetch : GoStr → Except GoStr TransferItems) (done : Nat → Bool) (k : Nat) :
    (processTask m task = true ↔
      ∃ t, parseRFC3339 task.CompletionTime = some t ∧ m.lastProcessedTime < t) ∧
    (processTask m task = false →
      stepTask fetch done m task k =
        (m, match parseRFC3339 task.CompletionTime with
            | none => [Event.logParseError task.CompletionTime]
            | some _ => [])) := by
  constructor
  · unfold processTask
    cases hp : parseRFC3339 task.CompletionTime with
    | none => simp
    | some t => simp
  · intro hfalse
    unfold stepTask
    rw [if_pos hfalse]

/-- C7, witness: a task whose completion timestamp fails to parse is only
logged; its step performs no fetch and no hand-off. -/
theorem c7_witness :
    stepTask fixtureFetch (fun _ => false) (NewGlobusTaskMonitor ("ep".toList)) fixtureBadTask 0 =
      (NewGlobusTaskMonitor ("ep".toList), [Event.logParseError ("garbage".toList)]) :=
  (c7_admission _ fixtureBadTask fixtureFetch (fun _ => false) 0).2 (by decide)

/-- C9: hand-off guards — a first transfer item with an empty destination path
(a download) yields no events at all, and a non-empty destination with fewer
than five `/`-pieces yields only the `Invalid globus DestinationPath` log; in
both cases the monitor state is untouched, and the task loop always continues
with the remaining tasks of the cycle (its events are appended after the
current step's events, from the same monitor state). -/
theorem c9_guards (m : GlobusTaskMonitor) (ti : TransferItem) (rest : List TransferItem)
    (fetch : GoStr → Except GoStr TransferItems) (done : Nat → Bool)
    (task : GlobusTask) (tasks : List GlobusTask) (k : Nat) :
    (ti.DestinationPath = [] → processTransfers m ⟨ti :: rest⟩ = some (m, [])) ∧
    (ti.DestinationPath ≠ [] → (splitOnSlash ti.DestinationPath).length < 5 →
      processTransfers m ⟨ti :: rest⟩ = some (m, [Event.logInvalidPath ti.DestinationPath])) ∧
    (processTaskList fetch done m (task :: tasks) k).2 =
      (stepTask fetch done m task k).2 ++ (processTaskList fetch done m tasks (k + 1)).2 := by
  refine ⟨fun h1 => ?_, fun h1 h2 => ?_, ?_⟩
  · simp only [processTransfers]
    rw [if_pos h1]
  · simp only [processTransfers]
    rw [if_neg h1, if_pos h2]
  · simp only [processTaskList]
    rw [stepTask_fst]

/-- C9, witness: a download item and a three-piece destination, both on the
fresh monitor: no hand-off, only the malformed-path log in the second case. -/
theorem c9_witness :
    processTransfers (NewGlobusTaskMonitor ("ep".toList)) ⟨[⟨"/src/a".toList, []⟩]⟩ =
      some (NewGlobusTaskMonitor ("ep".toList), []) ∧
    processTransfers (NewGlobusTaskMonitor ("ep".toList)) ⟨[⟨"/src/a".toList, "/a/b".toList⟩]⟩ =
      some (NewGlobusTaskMonitor ("ep".toList), [Event.logInvalidPath ("/a/b".toList)]) :=
  ⟨(c9_guards _ ⟨"/src/a".toList, []⟩ [] fixtureFetch (fun _ => false) fixtureBadTask [] 0).1 rfl,
   (c9_guards _ ⟨"/src/a".toList, "/a/b".toList⟩ [] fixtureFetch (fun _ => false)
      fixtureBadTask [] 0).2.1 (by decide) (by decide)⟩

/-- C3 (code bug): dedup idempotence fails in the code.  The spec requires the
hand-off to mark the routing identifier in the dedup set so that a second
observation of the same completed task is suppressed, and the source's own
comment at the membership check reads `We've seen this globus task before and
already processed it`; but the insertion `m.finishedGlobusTasks[id] = true` is
commented out, so nothing is ever marked.  Feeding the monitor the identical
completed task (destination `/__transfers/42/7/x/a.txt`, routing id `42`) in
two consecutive poll cycles performs the hand-off twice, where the claim says
exactly once. -/
theorem c3_dedup_code_bug :
    (monitorAndProcessTasks (NewGlobusTaskMonitor ("ep".toList)) [fixtureCycle, fixtureCycle]).2 =
      [Event.handOff ("42".toList), Event.handOff ("42".toList)] := by decide

/-- C4 (code bug): mid-cycle cancellation is ineffective.  The per-task check

    select { case <-c.Done(): break; default: }

intends to stop the cycle (`Check if we should stop processing requests`), but
Go's `break` terminates only the `select` statement, not the surrounding range
loop.  With the cancellation signal permanently set, a two-task cycle still
processes the second task and performs its hand-off, where the claim says no
further task of the cycle is processed. -/
theorem c4_cancellation_code_bug :
    (retrieveAndProcessUploads (NewGlobusTaskMonitor ("ep".toList))
        (Except.ok ⟨[fixtureTask1, fixtureTask2]⟩) fixtureFetch (fun _ => true)).2 =
      [Event.handOff ("42".toList), Event.handOff ("43".toList)] := by decide
